import Mathlib

/-
Verification of the MCTS engine in `src/ggpa/mcts_bot.py`.

Shallow embedding conventions:
* Python floats are modelled by exact rationals (`ℚ`) for bookkeeping and by
  reals (`ℝ`) where `math.sqrt` / `math.log` appear.
* The global random source is modelled by an oracle stream `List ℕ`; one draw
  is consumed per call to `random.choice` and per `copy_undeterministic`.
  `random.choice xs` returns the element at index `r % len xs` of `xs`.
* The external game engine (`BattleState`) is an abstract `Game` structure
  exposing exactly the capabilities the bot consumes.
* Mutation of the tree is modelled by returning the updated tree; the upward
  `backpropagate` walk through parent pointers is realised by every recursion
  level appending the propagated value to its own node on the way back up.
* A Python exception (KeyError, IndexError on `random.choice([])`,
  `step(None)` after an empty selection loop) is modelled by `none`.
-/

/-- One draw from the pseudo-random oracle stream (0 once the stream is
exhausted, which concrete examples never rely on for uniformity). -/
def draw : List ℕ → ℕ × List ℕ
  | [] => (0, [])
  | r :: rs => (r, rs)

/-- `random.choice xs` with oracle value `r`: the element at index
`r % len xs`; `none` models the `IndexError` raised on an empty list. -/
def randChoice {α : Type} (xs : List α) (r : ℕ) : Option α :=
  xs[r % xs.length]?

/-- Lookup in the `children` dict (keys are action identities `a.key()`,
modelled as `ℕ`); insertion order of the Python dict is the list order. -/
def lookupChild {β : Type} (k : ℕ) : List (ℕ × β) → Option β
  | [] => none
  | (k', c) :: rest => if k' = k then some c else lookupChild k rest

/-- `sum(l)/len(l)` as in `TreeNode.backpropagate`. -/
def meanOf (l : List ℚ) : ℚ := l.sum / (l.length : ℚ)

/-- A vertex of the search tree: the fields of Python's `TreeNode`
(`children`, `results`, `param`, `sc`, `action`, `aname`); the `parent`
back-reference is represented by the tree structure itself. -/
inductive TreeNode : Type where
  | mk (results : List ℚ) (sc : ℚ) (param : ℚ) (action : Option ℕ)
      (aname : Option String) (children : List (ℕ × TreeNode))

def TreeNode.results : TreeNode → List ℚ
  | .mk r _ _ _ _ _ => r

def TreeNode.sc : TreeNode → ℚ
  | .mk _ sc _ _ _ _ => sc

def TreeNode.param : TreeNode → ℚ
  | .mk _ _ p _ _ _ => p

def TreeNode.action : TreeNode → Option ℕ
  | .mk _ _ _ a _ _ => a

def TreeNode.aname : TreeNode → Option String
  | .mk _ _ _ _ an _ => an

def TreeNode.children : TreeNode → List (ℕ × TreeNode)
  | .mk _ _ _ _ _ ch => ch

/-- `TreeNode.__init__`: fresh node (`results = []`, `sc = 0.5`). -/
def TreeNode.new (param : ℚ) : TreeNode :=
  TreeNode.mk [] (1/2) param none none []

/-- One frame of `TreeNode.backpropagate` applied to this node's own fields:
append the result and recompute `sc = sum(results)/len(results)`. -/
def TreeNode.record (t : TreeNode) (v : ℚ) : TreeNode :=
  TreeNode.mk (t.results ++ [v]) (meanOf (t.results ++ [v])) t.param t.action t.aname t.children

/-- The interface of the external simulation state (`BattleState`) that
`mcts_bot.py` consumes: legal actions with stable identity keys and labels,
transition, termination, end result, scalar score, health, and stochastic
resampling (`copy_undeterministic`, consuming one oracle draw). -/
structure Game (S A : Type) where
  ended : S → Bool
  actions : S → List A
  key : A → ℕ
  name : A → String
  step : S → A → S
  resample : S → ℕ → S
  score : S → ℚ
  health : S → ℚ
  endResult : S → ℤ

/-- `TreeNode.score(state)`: `1` on a terminal win, otherwise the blended
heuristic `(state.score() + state.health()) / 3` (the `return 0` line for a
loss is commented out in the source, so control falls through to the blend). -/
def TreeNode.score {S A : Type} (g : Game S A) (s : S) : ℚ :=
  if g.ended s then
    if g.endResult s = 1 then 1 else (g.score s + g.health s) / 3
  else (g.score s + g.health s) / 3

/-- The argmax loop shared by `TreeNode.get_best` (lines 40-48) and
`TreeNode.select` (lines 81-90): running best `amax` with running weight
`cmax_weight` (initially the sentinel), strict `>` comparison, so the first
element attaining the maximum wins; a `none` weight is skipped (that is the
`if a.key() in self.children` guard of `get_best`; in `select`'s use every
weight is `some` because no unexplored action remains). -/
def pickMaxAux {A W : Type} [LinearOrder W] (w : A → Option W) :
    List A → Option A → W → Option A
  | [], amax, _ => amax
  | a :: rest, amax, mw =>
    match w a with
    | none => pickMaxAux w rest amax mw
    | some cw => if mw < cw then pickMaxAux w rest (some a) cw else pickMaxAux w rest amax mw

/-- The UCB-style weight of line 86:
`c.sc + self.param * math.sqrt(math.log(len(self.results) / len(c.results)))`
(arguments: `self.param`, `c.sc`, `len(self.results)`, `len(c.results)`). -/
noncomputable def ucbW (param csc : ℚ) (selfN cN : ℕ) : ℝ :=
  (csc : ℝ) + (param : ℝ) * Real.sqrt (Real.log ((selfN : ℝ) / (cN : ℝ)))

/-- The weight `select` assigns to a legal action: the UCB-style weight of the
child stored under the action's key (`none` if there is no such child). `wf`
abstracts the arithmetic of line 86; the engine instantiates it with `ucbW`. -/
def childWeight {A W : Type} (wf : ℚ → ℚ → ℕ → ℕ → W) (t : TreeNode) (key : A → ℕ) (a : A) :
    Option W :=
  (lookupChild (key a) t.children).map (fun c => wf t.param c.sc t.results.length c.results.length)

/-- Lines 81-90 of `select`: the exploitation choice over the legal actions,
with sentinel `-1` and first-encountered-wins tie-breaking. -/
def exploitChoice {A W : Type} [LinearOrder W] [Neg W] [One W]
    (wf : ℚ → ℚ → ℕ → ℕ → W) (t : TreeNode) (key : A → ℕ) (acts : List A) : Option A :=
  pickMaxAux (childWeight wf t key) acts none (-1)

/-- `TreeNode.get_best(state)`: pure-exploitation argmax of `c.sc` over the
legal actions that have a child (sentinel `-1`, strict `>`), falling back to
`random.choice(state.get_actions())` when the loop selected nothing. -/
def TreeNode.get_best {A : Type} (t : TreeNode) (key : A → ℕ) (acts : List A) (r : ℕ) :
    Option A :=
  match pickMaxAux (fun a => (lookupChild (key a) t.children).map TreeNode.sc) acts none
      ((-1 : ℚ)) with
  | some a => some a
  | none => randChoice acts r

/-- The `while not state.ended()` loop of `TreeNode.rollout`: play uniformly
random actions until termination, returning the terminal state. `fuel` bounds
the number of iterations (`none` models non-termination within the bound). -/
def rolloutLoop {S A : Type} (g : Game S A) (fuel : ℕ) (s : S) (rng : List ℕ) :
    Option (S × List ℕ) :=
  if g.ended s then some (s, rng)
  else
    match fuel with
    | 0 => none
    | fuel' + 1 =>
      let d := draw rng
      match randChoice (g.actions s) d.1 with
      | none => none
      | some a => rolloutLoop g fuel' (g.step s a) d.2

/-- `TreeNode.rollout(state)`: play to termination, then
`self.backpropagate(self.score(state))`; this node's own frame of the
backpropagation is applied here, the value is returned for the ancestors. -/
def TreeNode.rollout {S A : Type} (g : Game S A) (fuel : ℕ) (t : TreeNode) (s : S)
    (rng : List ℕ) : Option (TreeNode × ℚ × List ℕ) :=
  match rolloutLoop g fuel s rng with
  | none => none
  | some (sf, rng') => some (t.record (TreeNode.score g sf), TreeNode.score g sf, rng')

/-- `TreeNode.expand(state, available)` (lines 98-106): resample the given
state once more (`statecopy = state.copy_undeterministic()`, line 99), pick a
random unexplored action, insert a fresh child under its key, apply the action
to the fresh resample and roll out from the successor on the new child. -/
def TreeNode.expand {S A : Type} (g : Game S A) (fuel : ℕ) (t : TreeNode) (s : S)
    (avail : List A) (rng : List ℕ) : Option (TreeNode × ℚ × List ℕ) :=
  let d1 := draw rng
  let statecopy := g.resample s d1.1
  let d2 := draw d1.2
  match randChoice avail d2.1 with
  | none => none
  | some choice =>
    let nn := TreeNode.mk [] (1/2) t.param (some (g.key choice)) (some (g.name choice)) []
    match nn.rollout g fuel (g.step statecopy choice) d2.2 with
    | none => none
    | some (nn', v, rng') =>
      some (TreeNode.mk (t.results ++ [v]) (meanOf (t.results ++ [v])) t.param t.action t.aname
        (t.children ++ [(g.key choice, nn')]), v, rng')

mutual
/-- `TreeNode.select(state)` (lines 68-92).  The returned triple is the
updated subtree rooted at this node (its own backpropagation frame already
applied), the backpropagated value (still owed to the ancestors), and the
remaining oracle stream; `none` models a raised exception. -/
def TreeNode.select {S A W : Type} [LinearOrder W] [Neg W] [One W] (g : Game S A)
    (wf : ℚ → ℚ → ℕ → ℕ → W) (fuel : ℕ) :
    TreeNode → S → List ℕ → Option (TreeNode × ℚ × List ℕ)
  | TreeNode.mk results sc param action aname children, s, rng =>
    if g.ended s then
      some ((TreeNode.mk results sc param action aname children).record (TreeNode.score g s),
        TreeNode.score g s, rng)
    else
      let d := draw rng
      let statecopy := g.resample s d.1
      let acts := g.actions statecopy
      let avail := acts.filter (fun a => (lookupChild (g.key a) children).isNone)
      if 0 < avail.length then
        TreeNode.expand g fuel (TreeNode.mk results sc param action aname children)
          statecopy avail d.2
      else
        match exploitChoice wf (TreeNode.mk results sc param action aname children) g.key acts with
        | none => none
        | some amax =>
          match descend g wf fuel children (g.key amax) (g.step statecopy amax) d.2 with
          | none => none
          | some (children', v, rng') =>
            some (TreeNode.mk (results ++ [v]) (meanOf (results ++ [v])) param action aname
              children', v, rng')

/-- `statecopy.step(amax); cmax.select(statecopy)` realised on the children
list: find the entry of key `k`, recurse `select` into it with the successor
state and put the updated subtree back in place. -/
def descend {S A W : Type} [LinearOrder W] [Neg W] [One W] (g : Game S A)
    (wf : ℚ → ℚ → ℕ → ℕ → W) (fuel : ℕ) :
    List (ℕ × TreeNode) → ℕ → S → List ℕ → Option (List (ℕ × TreeNode) × ℚ × List ℕ)
  | [], _, _, _ => none
  | (k', c) :: rest, k, s, rng =>
    if k' = k then
      match TreeNode.select g wf fuel c s rng with
      | none => none
      | some (c', v, rng') => some ((k', c') :: rest, v, rng')
    else
      match descend g wf fuel rest k s rng with
      | none => none
      | some (rest', v, rng') => some ((k', c) :: rest', v, rng')
end

/-- The driver loop of `MCTSAgent.choose_card` (lines 153-155): per iteration,
resample the decision state and call `t.step(sample_state)` (which is
`select`) on the shared root. -/
def runLoop {S A W : Type} [LinearOrder W] [Neg W] [One W] (g : Game S A)
    (wf : ℚ → ℚ → ℕ → ℕ → W) (fuel : ℕ) :
    ℕ → TreeNode → S → List ℕ → Option (TreeNode × List ℕ)
  | 0, t, _, rng => some (t, rng)
  | n + 1, t, s, rng =>
    let d := draw rng
    match TreeNode.select g wf fuel t (g.resample s d.1) d.2 with
    | none => none
    | some (t', _, rng') => runLoop g wf fuel n t' s rng'

/-- `MCTSAgent.choose_card` (lines 145-164): single-action shortcut, else
build a fresh root, run the budget, and extract `get_best` on the original
(unresampled) decision state.  The second component reports the search tree
when one was constructed (`none` on the shortcut path), mirroring which
objects the Python code allocates.  The trailing `.to_action` conversion is
external and identity-like, so the chosen action itself is returned. -/
def MCTSAgent.choose_card {S A W : Type} [LinearOrder W] [Neg W] [One W] (g : Game S A)
    (wf : ℚ → ℚ → ℕ → ℕ → W) (fuel iterations : ℕ) (param : ℚ) (s : S) (rng : List ℕ) :
    Option (A × Option TreeNode) :=
  let acts := g.actions s
  if acts.length = 1 then (acts[0]?).map (fun a => (a, none))
  else
    match runLoop g wf fuel iterations (TreeNode.new param) s rng with
    | none => none
    | some (t, rng') =>
      match t.get_best g.key (g.actions s) (draw rng').1 with
      | none => none
      | some a => some (a, some t)

/-- The statistics of one node as seen by `backpropagate`. -/
structure NodeStat where
  results : List ℚ
  sc : ℚ
deriving DecidableEq

/-- `TreeNode.backpropagate(result)` (lines 120-124) on the chain
`self :: parent :: ... :: root` of nodes reached by the parent pointers:
append the result, recompute `sc`, recurse to the parent with the same value. -/
def backpropagate (result : ℚ) : List NodeStat → List NodeStat
  | [] => []
  | n :: ancestors =>
    ⟨n.results ++ [result], meanOf (n.results ++ [result])⟩ :: backpropagate result ancestors

/-- One line of `print_tree` output, structurally: the number of leading tab
characters, the child's label, the displayed score `int(c.sc * 100) / 100`,
and the displayed visit count `len(c.results)`. -/
structure PrintLine where
  indent : ℕ
  label : Option String
  shown : ℚ
  visits : ℕ
deriving DecidableEq

/-- Python `int()` on a rational: truncation toward zero. -/
def pyInt (q : ℚ) : ℤ := if 0 ≤ q then ⌊q⌋ else ⌈q⌉

/-- Rounding to two decimal places (the spec's reading of the displayed
score); compared against the code's truncation `pyInt`. -/
def round2 (q : ℚ) : ℚ := ((round (q * 100) : ℤ) : ℚ) / 100

mutual
/-- `TreeNode.print_tree(indent)` (lines 55-60): for each child, one line
`aname ++ ": " ++ str(int(c.sc*100)/100) ++ " " ++ str(len(c.results))`
prefixed by `indent` tabs, then the child's own subtree one tab deeper. -/
def TreeNode.print_tree : TreeNode → ℕ → List PrintLine
  | TreeNode.mk _ _ _ _ _ children, indent => printChildren children indent

def printChildren : List (ℕ × TreeNode) → ℕ → List PrintLine
  | [], _ => []
  | (_, c) :: rest, indent =>
    ⟨indent, c.aname, ((pyInt (c.sc * 100) : ℤ) : ℚ) / 100, c.results.length⟩ ::
      (c.print_tree (indent + 1) ++ printChildren rest indent)
end

/-- Modelled from the spec: claim C7's reading of `expand`, which "applies
the chosen action to the (already resampled) state to obtain the successor"
without resampling it again; written only to be compared with
`TreeNode.expand`, which does resample once more (line 99). -/
def expandAsSpecified {S A : Type} (g : Game S A) (fuel : ℕ) (t : TreeNode) (s : S)
    (avail : List A) (rng : List ℕ) : Option (TreeNode × ℚ × List ℕ) :=
  let d2 := draw rng
  match randChoice avail d2.1 with
  | none => none
  | some choice =>
    let nn := TreeNode.mk [] (1/2) t.param (some (g.key choice)) (some (g.name choice)) []
    match nn.rollout g fuel (g.step s choice) d2.2 with
    | none => none
    | some (nn', v, rng') =>
      some (TreeNode.mk (t.results ++ [v]) (meanOf (t.results ++ [v])) t.param t.action t.aname
        (t.children ++ [(g.key choice, nn')]), v, rng')

/-- The visit-count invariant of the search tree: every child has been
backpropagated into at least once, no child has more recorded results than
its parent, and the same holds hereditarily below. -/
inductive TreeInv : TreeNode → Prop where
  | node (results : List ℚ) (sc param : ℚ) (action : Option ℕ) (aname : Option String)
      (children : List (ℕ × TreeNode)) :
      (∀ kc : ℕ × TreeNode, kc ∈ children →
        1 ≤ kc.2.results.length ∧ kc.2.results.length ≤ results.length) →
      (∀ kc : ℕ × TreeNode, kc ∈ children → TreeInv kc.2) →
      TreeInv (TreeNode.mk results sc param action aname children)

/-- `Subtree t r`: `t` is a node of the tree rooted at `r` (reflexive,
following child edges). -/
inductive Subtree : TreeNode → TreeNode → Prop where
  | refl (t : TreeNode) : Subtree t t
  | child {p r c : TreeNode} {k : ℕ} :
      Subtree p r → (k, c) ∈ p.children → Subtree c r

/-- A deterministic single-line test game on states `ℕ`: one legal action
(key 0) that increments the state, terminal once `limit` is reached,
`copy_undeterministic` shifts the state by `jump` (0 = faithful resampling),
never a win signal, `score = s`, `health = 0`. -/
def lineGame (limit jump : ℕ) : Game ℕ ℕ where
  ended := fun s => decide (limit ≤ s)
  actions := fun _ => [0]
  key := id
  name := fun _ => "a"
  step := fun s _ => s + 1
  resample := fun s _ => s + jump
  score := fun s => (s : ℚ)
  health := fun _ => 0
  endResult := fun _ => 0

/-- A weight function used to instantiate the exploration formula in runs
that never reach the exploitation branch. -/
def wfZero : ℚ → ℚ → ℕ → ℕ → ℚ := fun _ _ _ _ => 0

/-- A fully explored child whose mean score is `-2` (one recorded result). -/
def leafNeg : TreeNode :=
  TreeNode.mk [-2] (-2) (1/2) (some 0) (some "a") []

/-- A parent with one recorded result whose only child is `leafNeg`; here the
visit-count ratio is `1/1`, so the UCB weight of the child is exactly its
mean score `-2`. -/
def treeNeg : TreeNode :=
  TreeNode.mk [0] 0 (1/2) none none [(0, leafNeg)]

/-- Child with mean score `1/2`, reached by action key 0. -/
def leafA : TreeNode :=
  TreeNode.mk [1/2] (1/2) (1/2) (some 0) (some "a") []

/-- Child with mean score `1/2`, reached by action key 1. -/
def leafB : TreeNode :=
  TreeNode.mk [1/2] (1/2) (1/2) (some 1) (some "b") []

/-- A parent with two equally scored children (a UCB tie). -/
def treeTie : TreeNode :=
  TreeNode.mk [1/2] (1/2) (1/2) none none [(0, leafA), (1, leafB)]

/-- Child whose mean score `0.876` separates truncation (`0.87`) from
rounding (`0.88`) at two decimal places. -/
def leafTrunc : TreeNode :=
  TreeNode.mk [219/250] (219/250) (1/2) (some 0) (some "a") []

/-- A root whose only child is `leafTrunc`. -/
def treeTrunc : TreeNode :=
  TreeNode.mk [] 0 (1/2) none none [(0, leafTrunc)]

/-- The child produced by one expansion of a fresh root on `lineGame 2 0`
(rollout value `2/3`). -/
def treeExpChild : TreeNode :=
  TreeNode.mk [2/3] (meanOf [2/3]) (1/2) (some 0) (some "a") []

/-- The tree produced from a fresh root by a budget of exactly one iteration
on `lineGame 2 0`: one new node below the root, one result everywhere. -/
def treeExp : TreeNode :=
  TreeNode.mk [2/3] (meanOf [2/3]) (1/2) none none [(0, treeExpChild)]

/-! ### Basic lemmas about the embedded data structures -/

@[simp] theorem TreeNode.results_mk (r : List ℚ) (sc p : ℚ) (a : Option ℕ) (an : Option String)
    (ch : List (ℕ × TreeNode)) : (TreeNode.mk r sc p a an ch).results = r := rfl

@[simp] theorem TreeNode.sc_mk (r : List ℚ) (sc p : ℚ) (a : Option ℕ) (an : Option String)
    (ch : List (ℕ × TreeNode)) : (TreeNode.mk r sc p a an ch).sc = sc := rfl

@[simp] theorem TreeNode.param_mk (r : List ℚ) (sc p : ℚ) (a : Option ℕ) (an : Option String)
    (ch : List (ℕ × TreeNode)) : (TreeNode.mk r sc p a an ch).param = p := rfl

@[simp] theorem TreeNode.action_mk (r : List ℚ) (sc p : ℚ) (a : Option ℕ) (an : Option String)
    (ch : List (ℕ × TreeNode)) : (TreeNode.mk r sc p a an ch).action = a := rfl

@[simp] theorem TreeNode.aname_mk (r : List ℚ) (sc p : ℚ) (a : Option ℕ) (an : Option String)
    (ch : List (ℕ × TreeNode)) : (TreeNode.mk r sc p a an ch).aname = an := rfl

@[simp] theorem TreeNode.children_mk (r : List ℚ) (sc p : ℚ) (a : Option ℕ) (an : Option String)
    (ch : List (ℕ × TreeNode)) : (TreeNode.mk r sc p a an ch).children = ch := rfl

@[simp] theorem TreeNode.record_results (t : TreeNode) (v : ℚ) :
    (t.record v).results = t.results ++ [v] := rfl

@[simp] theorem TreeNode.record_sc (t : TreeNode) (v : ℚ) :
    (t.record v).sc = meanOf (t.results ++ [v]) := rfl

@[simp] theorem TreeNode.record_children (t : TreeNode) (v : ℚ) :
    (t.record v).children = t.children := rfl

@[simp] theorem TreeNode.record_param (t : TreeNode) (v : ℚ) :
    (t.record v).param = t.param := rfl

theorem lookupChild_mem {β : Type} {k : ℕ} {c : β} :
    ∀ {l : List (ℕ × β)}, lookupChild k l = some c → (k, c) ∈ l := by
  intro l
  induction l with
  | nil => intro h; cases h
  | cons kc rest ih =>
    obtain ⟨k', c'⟩ := kc
    intro h
    rw [lookupChild] at h
    by_cases hk : k' = k
    · rw [if_pos hk] at h
      cases h
      subst hk
      exact List.mem_cons_self _ _
    · rw [if_neg hk] at h
      exact List.mem_cons_of_mem _ (ih h)

theorem randChoice_mem {α : Type} (xs : List α) (r : ℕ) (hne : xs ≠ []) :
    ∃ a ∈ xs, randChoice xs r = some a := by
  have hlt : r % xs.length < xs.length :=
    Nat.mod_lt _ (List.length_pos.mpr hne)
  refine ⟨xs.get ⟨r % xs.length, hlt⟩, List.get_mem _ _ _, ?_⟩
  simp [randChoice, List.getElem?_eq_getElem hlt]

/-! ### The shared argmax loop: characterisation -/

/-- Behaviour of the `-1`-sentinel strict-max loop: if some element's weight
beats the running maximum, the loop returns the first element attaining the
overall maximum weight (ties broken by position); if no element's weight
beats the running maximum, the accumulator is returned unchanged. -/
theorem pickMaxAux_spec {A W : Type} [LinearOrder W] (w : A → Option W) :
    ∀ (xs : List A) (acc : Option A) (mw : W),
      ((∃ b ∈ xs, ∃ u, w b = some u ∧ mw < u) →
        ∃ l1 b l2 u, xs = l1 ++ b :: l2 ∧ w b = some u ∧ mw < u ∧
          pickMaxAux w xs acc mw = some b ∧
          (∀ b' ∈ xs, ∀ u', w b' = some u' → u' ≤ u) ∧
          (∀ b' ∈ l1, ∀ u', w b' = some u' → u' < u)) ∧
      ((∀ b ∈ xs, ∀ u, w b = some u → u ≤ mw) → pickMaxAux w xs acc mw = acc) := by
  intro xs
  induction xs with
  | nil =>
    intro acc mw
    constructor
    · rintro ⟨b, hb, -⟩
      exact absurd hb (List.not_mem_nil b)
    · intro _; rfl
  | cons x rest ih =>
    intro acc mw
    constructor
    · rintro ⟨b, hb, u, hwb, hmu⟩
      cases hwx : w x with
      | none =>
        have hb' : b ∈ rest := by
          rcases List.mem_cons.mp hb with h | h
          · subst h; rw [hwx] at hwb; cases hwb
          · exact h
        obtain ⟨l1, b0, l2, u0, hsplit, hw0, hmu0, hres, hmax, hfirst⟩ :=
          (ih acc mw).1 ⟨b, hb', u, hwb, hmu⟩
        refine ⟨x :: l1, b0, l2, u0, by rw [hsplit]; rfl, hw0, hmu0, ?_, ?_, ?_⟩
        · simpa [pickMaxAux, hwx] using hres
        · intro b' hb' u' hw'
          rcases List.mem_cons.mp hb' with h | h
          · subst h; rw [hwx] at hw'; cases hw'
          · exact hmax b' h u' hw'
        · intro b' hb' u' hw'
          rcases List.mem_cons.mp hb' with h | h
          · subst h; rw [hwx] at hw'; cases hw'
          · exact hfirst b' h u' hw'
      | some ux =>
        by_cases hlt : mw < ux
        · by_cases hstr : ∃ b' ∈ rest, ∃ u', w b' = some u' ∧ ux < u'
          · obtain ⟨l1, b0, l2, u0, hsplit, hw0, hmu0, hres, hmax, hfirst⟩ :=
              (ih (some x) ux).1 hstr
            refine ⟨x :: l1, b0, l2, u0, by rw [hsplit]; rfl, hw0,
              lt_trans hlt hmu0, ?_, ?_, ?_⟩
            · simpa [pickMaxAux, hwx, hlt] using hres
            · intro b' hb' u' hw'
              rcases List.mem_cons.mp hb' with h | h
              · subst h; rw [hwx] at hw'; cases hw'; exact le_of_lt hmu0
              · exact hmax b' h u' hw'
            · intro b' hb' u' hw'
              rcases List.mem_cons.mp hb' with h | h
              · subst h; rw [hwx] at hw'; cases hw'; exact hmu0
              · exact hfirst b' h u' hw'
          · push_neg at hstr
            refine ⟨[], x, rest, ux, rfl, hwx, hlt, ?_, ?_, ?_⟩
            · have hres := (ih (some x) ux).2 (fun b' hb' u' hw' => hstr b' hb' u' hw')
              simpa [pickMaxAux, hwx, hlt] using hres
            · intro b' hb' u' hw'
              rcases List.mem_cons.mp hb' with h | h
              · subst h; rw [hwx] at hw'; cases hw'; exact le_refl _
              · exact hstr b' h u' hw'
            · intro b' hb'
              exact absurd hb' (List.not_mem_nil b')
        · have hb' : b ∈ rest := by
            rcases List.mem_cons.mp hb with h | h
            · subst h; rw [hwx] at hwb; cases hwb; exact absurd hmu hlt
            · exact h
          obtain ⟨l1, b0, l2, u0, hsplit, hw0, hmu0, hres, hmax, hfirst⟩ :=
            (ih acc mw).1 ⟨b, hb', u, hwb, hmu⟩
          have hx0 : ux < u0 := lt_of_le_of_lt (not_lt.mp hlt) hmu0
          refine ⟨x :: l1, b0, l2, u0, by rw [hsplit]; rfl, hw0, hmu0, ?_, ?_, ?_⟩
          · simpa [pickMaxAux, hwx, hlt] using hres
          · intro b' hb' u' hw'
            rcases List.mem_cons.mp hb' with h | h
            · subst h; rw [hwx] at hw'; cases hw'; exact le_of_lt hx0
            · exact hmax b' h u' hw'
          · intro b' hb' u' hw'
            rcases List.mem_cons.mp hb' with h | h
            · subst h; rw [hwx] at hw'; cases hw'; exact hx0
            · exact hfirst b' h u' hw'
    · intro hall
      cases hwx : w x with
      | none =>
        have := (ih acc mw).2 (fun b hb u hw => hall b (List.mem_cons_of_mem _ hb) u hw)
        simpa [pickMaxAux, hwx] using this
      | some ux =>
        have hle : ux ≤ mw := hall x (List.mem_cons_self _ _) ux hwx
        have := (ih acc mw).2 (fun b hb u hw => hall b (List.mem_cons_of_mem _ hb) u hw)
        simpa [pickMaxAux, hwx, not_lt.mpr hle] using this

/-- The loop only ever returns an element of the list or the accumulator. -/
theorem pickMaxAux_mem {A W : Type} [LinearOrder W] (w : A → Option W) :
    ∀ (xs : List A) (acc : Option A) (mw : W) (a : A),
      pickMaxAux w xs acc mw = some a → a ∈ xs ∨ acc = some a := by
  intro xs
  induction xs with
  | nil => intro acc mw a h; exact Or.inr h
  | cons x rest ih =>
    intro acc mw a h
    cases hwx : w x with
    | none =>
      simp only [pickMaxAux, hwx] at h
      rcases ih acc mw a h with h1 | h1
      · exact Or.inl (List.mem_cons_of_mem _ h1)
      · exact Or.inr h1
    | some ux =>
      simp only [pickMaxAux, hwx] at h
      by_cases hlt : mw < ux
      · rw [if_pos hlt] at h
        rcases ih (some x) ux a h with h1 | h1
        · exact Or.inl (List.mem_cons_of_mem _ h1)
        · cases h1; exact Or.inl (List.mem_cons_self _ _)
      · rw [if_neg hlt] at h
        rcases ih acc mw a h with h1 | h1
        · exact Or.inl (List.mem_cons_of_mem _ h1)
        · exact Or.inr h1

/-! ### Size lemmas for recursion over the tree -/

theorem sizeOf_lt_of_mem_pairs {k : ℕ} {c : TreeNode} {l : List (ℕ × TreeNode)}
    (h : (k, c) ∈ l) : sizeOf c < sizeOf l := by
  have h1 := List.sizeOf_lt_of_mem h
  have h2 : sizeOf (k, c) = 1 + sizeOf k + sizeOf c := rfl
  omega

theorem randChoice_mem_of_some {α : Type} {xs : List α} {r : ℕ} {a : α}
    (h : randChoice xs r = some a) : a ∈ xs := by
  rw [randChoice] at h
  exact List.getElem?_mem h

/-! ### The visit-count invariant -/

theorem TreeInv_elim {r : List ℚ} {sc p : ℚ} {a : Option ℕ} {an : Option String}
    {ch : List (ℕ × TreeNode)} (h : TreeInv (TreeNode.mk r sc p a an ch)) :
    ∀ kc ∈ ch, ((1 ≤ kc.2.results.length ∧ kc.2.results.length ≤ r.length) ∧ TreeInv kc.2) := by
  cases h with
  | node _ _ _ _ _ _ hb hi => exact fun kc hkc => ⟨hb kc hkc, hi kc hkc⟩

theorem TreeInv_of_children_nil {t : TreeNode} (h : t.children = []) : TreeInv t := by
  cases t with
  | mk r sc p a an ch =>
    simp only [TreeNode.children_mk] at h
    subst h
    exact TreeInv.node r sc p a an []
      (fun kc hkc => absurd hkc (List.not_mem_nil kc))
      (fun kc hkc => absurd hkc (List.not_mem_nil kc))

theorem TreeInv_record {t : TreeNode} (h : TreeInv t) (v : ℚ) : TreeInv (t.record v) := by
  cases t with
  | mk r sc p a an ch =>
    have hh := TreeInv_elim h
    exact TreeInv.node (r ++ [v]) (meanOf (r ++ [v])) p a an ch
      (fun kc hkc => ⟨(hh kc hkc).1.1, le_trans (hh kc hkc).1.2 (by simp)⟩)
      (fun kc hkc => (hh kc hkc).2)

theorem TreeInv_subtree : ∀ {r p : TreeNode}, Subtree p r → TreeInv r → TreeInv p := by
  intro r p h
  induction h with
  | refl t => exact fun hr => hr
  | @child p' r' c' k' hsub hmem ih =>
    intro hr
    cases p' with
    | mk rr ss pp aa nn cc =>
      simp only [TreeNode.children_mk] at hmem
      exact (TreeInv_elim (ih hr) _ hmem).2

theorem TreeInv_lookup {t c : TreeNode} {k : ℕ} (hinv : TreeInv t)
    (hc : lookupChild k t.children = some c) :
    1 ≤ c.results.length ∧ c.results.length ≤ t.results.length ∧ 1 ≤ t.results.length := by
  have hmem := lookupChild_mem hc
  cases t with
  | mk r sc p a an ch =>
    simp only [TreeNode.children_mk] at hmem
    have hb := (TreeInv_elim hinv _ hmem).1
    simp only [TreeNode.results_mk]
    exact ⟨hb.1, hb.2, le_trans hb.1 hb.2⟩

/-! ### Behaviour of `descend`, `expand`, `select` -/

theorem descend_some {S A W : Type} [LinearOrder W] [Neg W] [One W] {g : Game S A}
    {wf : ℚ → ℚ → ℕ → ℕ → W} {fuel : ℕ} :
    ∀ {l : List (ℕ × TreeNode)} {k : ℕ} {s : S} {rng : List ℕ}
      {l' : List (ℕ × TreeNode)} {v : ℚ} {rng' : List ℕ},
      descend g wf fuel l k s rng = some (l', v, rng') →
      ∃ pre c suf c', l = pre ++ (k, c) :: suf ∧ l' = pre ++ (k, c') :: suf ∧
        TreeNode.select g wf fuel c s rng = some (c', v, rng') := by
  intro l
  induction l with
  | nil =>
    intro k s rng l' v rng' h
    rw [descend] at h
    cases h
  | cons kc rest ih =>
    obtain ⟨k', c⟩ := kc
    intro k s rng l' v rng' h
    rw [descend] at h
    by_cases hk : k' = k
    · rw [if_pos hk] at h
      subst hk
      cases hsel : TreeNode.select g wf fuel c s rng with
      | none => rw [hsel] at h; cases h
      | some out =>
        obtain ⟨c', v2, rng2⟩ := out
        simp only [hsel, Option.some.injEq, Prod.mk.injEq] at h
        obtain ⟨h1, h2, h3⟩ := h
        subst h1; subst h2; subst h3
        exact ⟨[], c, rest, c', rfl, rfl, hsel⟩
    · rw [if_neg hk] at h
      cases hd : descend g wf fuel rest k s rng with
      | none => rw [hd] at h; cases h
      | some out =>
        obtain ⟨rest', v2, rng2⟩ := out
        simp only [hd, Option.some.injEq, Prod.mk.injEq] at h
        obtain ⟨h1, h2, h3⟩ := h
        subst h1; subst h2; subst h3
        obtain ⟨pre, c0, suf, c0', hsplit, hsplit', hsel⟩ := ih hd
        exact ⟨(k', c) :: pre, c0, suf, c0', by rw [hsplit]; rfl, by rw [hsplit']; rfl, hsel⟩

theorem expand_some {S A : Type} {g : Game S A} {fuel : ℕ} {t : TreeNode} {s : S}
    {avail : List A} {rng : List ℕ} {t' : TreeNode} {v : ℚ} {rng' : List ℕ}
    (h : TreeNode.expand g fuel t s avail rng = some (t', v, rng')) :
    ∃ choice nn', randChoice avail (draw (draw rng).2).1 = some choice ∧ choice ∈ avail ∧
      t' = TreeNode.mk (t.results ++ [v]) (meanOf (t.results ++ [v])) t.param t.action t.aname
        (t.children ++ [(g.key choice, nn')]) ∧
      nn' = TreeNode.mk [v] (meanOf [v]) t.param (some (g.key choice))
        (some (g.name choice)) [] ∧
      ∃ sf rngf,
        rolloutLoop g fuel (g.step (g.resample s (draw rng).1) choice) (draw (draw rng).2).2 =
          some (sf, rngf) ∧ v = TreeNode.score g sf ∧ rng' = rngf := by
  simp only [TreeNode.expand] at h
  cases hrc : randChoice avail (draw (draw rng).2).1 with
  | none => simp only [hrc] at h; exact Option.noConfusion h
  | some choice =>
    simp only [hrc, TreeNode.rollout] at h
    cases hrl : rolloutLoop g fuel (g.step (g.resample s (draw rng).1) choice)
        (draw (draw rng).2).2 with
    | none => simp only [hrl] at h; exact Option.noConfusion h
    | some out =>
      obtain ⟨sf, rngf⟩ := out
      simp only [hrl, Option.some.injEq, Prod.mk.injEq] at h
      obtain ⟨h1, h2, h3⟩ := h
      subst h2; subst h3
      refine ⟨choice,
        (TreeNode.mk [] (1/2) t.param (some (g.key choice)) (some (g.name choice)) []).record
          (TreeNode.score g sf),
        rfl, randChoice_mem_of_some hrc, h1.symm, rfl, sf, rngf, hrl, rfl, rfl⟩

/-- `select` preserves the visit-count invariant and appends exactly one
result to the node it is called on (strong induction on the tree size). -/
theorem select_preserves_aux {S A W : Type} [LinearOrder W] [Neg W] [One W] (g : Game S A)
    (wf : ℚ → ℚ → ℕ → ℕ → W) (fuel : ℕ) :
    ∀ (n : ℕ) (t : TreeNode), sizeOf t ≤ n →
      ∀ (s : S) (rng : List ℕ) (t' : TreeNode) (v : ℚ) (rng' : List ℕ),
        TreeNode.select g wf fuel t s rng = some (t', v, rng') → TreeInv t →
        TreeInv t' ∧ t'.results.length = t.results.length + 1 := by
  intro n
  induction n with
  | zero =>
    intro t ht
    exfalso
    cases t with
    | mk r sc p a an ch =>
      simp only [TreeNode.mk.sizeOf_spec] at ht
      omega
  | succ n ih =>
    intro t ht s rng t' v rng' hsel hinv
    cases t with
    | mk results0 sc0 param0 action0 aname0 children0 =>
      simp only [TreeNode.select] at hsel
      by_cases hend : g.ended s
      · rw [if_pos hend] at hsel
        simp only [Option.some.injEq, Prod.mk.injEq] at hsel
        obtain ⟨h1, h2, h3⟩ := hsel
        subst h1; subst h2; subst h3
        refine ⟨TreeInv_record hinv _, ?_⟩
        simp
      · rw [if_neg hend] at hsel
        by_cases hav : 0 < ((g.actions (g.resample s (draw rng).1)).filter
            (fun a => (lookupChild (g.key a) children0).isNone)).length
        · rw [if_pos hav] at hsel
          obtain ⟨choice, nn', hrc, hmem, ht', hnn', sf, rngf, hroll, hv, hrng⟩ :=
            expand_some hsel
          subst ht'
          constructor
          · refine TreeInv.node _ _ _ _ _ _ ?_ ?_
            · intro kc hkc
              rcases List.mem_append.mp hkc with hold | hnew
              · have hb := (TreeInv_elim hinv kc hold).1
                refine ⟨hb.1, le_trans hb.2 ?_⟩
                simp
              · have hkc2 : kc = (g.key choice, nn') := by simpa using hnew
                subst hkc2
                subst hnn'
                constructor
                · simp
                · simp
            · intro kc hkc
              rcases List.mem_append.mp hkc with hold | hnew
              · exact (TreeInv_elim hinv kc hold).2
              · have hkc2 : kc = (g.key choice, nn') := by simpa using hnew
                subst hkc2
                subst hnn'
                exact TreeInv_of_children_nil rfl
          · simp
        · rw [if_neg hav] at hsel
          cases hec : exploitChoice wf
              (TreeNode.mk results0 sc0 param0 action0 aname0 children0) g.key
              (g.actions (g.resample s (draw rng).1)) with
          | none => simp only [hec] at hsel; exact Option.noConfusion hsel
          | some amax =>
            simp only [hec] at hsel
            cases hd : descend g wf fuel children0 (g.key amax)
                (g.step (g.resample s (draw rng).1) amax) (draw rng).2 with
            | none => simp only [hd] at hsel; exact Option.noConfusion hsel
            | some out =>
              obtain ⟨children', v2, rng2⟩ := out
              simp only [hd, Option.some.injEq, Prod.mk.injEq] at hsel
              obtain ⟨h1, h2, h3⟩ := hsel
              subst h1; subst h2; subst h3
              obtain ⟨pre, c, suf, c', hsplit, hsplit', hcsel⟩ := descend_some hd
              subst hsplit
              subst hsplit'
              have hcmem : (g.key amax, c) ∈ pre ++ (g.key amax, c) :: suf := by simp
              have hcsize : sizeOf c ≤ n := by
                have hs1 := sizeOf_lt_of_mem_pairs hcmem
                simp only [TreeNode.mk.sizeOf_spec] at ht
                omega
              have hcfacts := TreeInv_elim hinv _ hcmem
              obtain ⟨hci, hclen⟩ :=
                ih c hcsize _ _ _ _ _ hcsel hcfacts.2
              constructor
              · refine TreeInv.node _ _ _ _ _ _ ?_ ?_
                · intro kc hkc
                  rcases List.mem_append.mp hkc with hpre | hrest
                  · have hb := (TreeInv_elim hinv kc (List.mem_append_left _ hpre)).1
                    refine ⟨hb.1, le_trans hb.2 ?_⟩
                    simp
                  · rcases List.mem_cons.mp hrest with heq | hsuf
                    · subst heq
                      simp only
                      constructor
                      · omega
                      · have : c.results.length ≤ results0.length := hcfacts.1.2
                        simp only [List.length_append, List.length_cons,
                          List.length_nil] at hclen ⊢
                        omega
                    · have hb := (TreeInv_elim hinv kc
                        (List.mem_append_right _ (List.mem_cons_of_mem _ hsuf))).1
                      refine ⟨hb.1, le_trans hb.2 ?_⟩
                      simp
                · intro kc hkc
                  rcases List.mem_append.mp hkc with hpre | hrest
                  · exact (TreeInv_elim hinv kc (List.mem_append_left _ hpre)).2
                  · rcases List.mem_cons.mp hrest with heq | hsuf
                    · subst heq
                      exact hci
                    · exact (TreeInv_elim hinv kc
                        (List.mem_append_right _ (List.mem_cons_of_mem _ hsuf))).2
              · simp

/-- Instance of the preservation lemma at the node's own size. -/
theorem select_preserves {S A W : Type} [LinearOrder W] [Neg W] [One W] (g : Game S A)
    (wf : ℚ → ℚ → ℕ → ℕ → W) (fuel : ℕ) (t : TreeNode) (s : S) (rng : List ℕ)
    (t' : TreeNode) (v : ℚ) (rng' : List ℕ)
    (hsel : TreeNode.select g wf fuel t s rng = some (t', v, rng')) (hinv : TreeInv t) :
    TreeInv t' ∧ t'.results.length = t.results.length + 1 :=
  select_preserves_aux g wf fuel (sizeOf t) t le_rfl s rng t' v rng' hsel hinv

/-- The driver loop preserves the visit-count invariant. -/
theorem runLoop_preserves {S A W : Type} [LinearOrder W] [Neg W] [One W] (g : Game S A)
    (wf : ℚ → ℚ → ℕ → ℕ → W) (fuel : ℕ) :
    ∀ (n : ℕ) (t : TreeNode) (s : S) (rng : List ℕ) (out : TreeNode × List ℕ),
      runLoop g wf fuel n t s rng = some out → TreeInv t → TreeInv out.1 := by
  intro n
  induction n with
  | zero =>
    intro t s rng out h hinv
    simp only [runLoop, Option.some.injEq] at h
    rw [← h]
    exact hinv
  | succ n ih =>
    intro t s rng out h hinv
    simp only [runLoop] at h
    cases hsel : TreeNode.select g wf fuel t (g.resample s (draw rng).1) (draw rng).2 with
    | none => simp only [hsel] at h; exact Option.noConfusion h
    | some o =>
      obtain ⟨t2, v2, rng2⟩ := o
      simp only [hsel] at h
      exact ih t2 s rng2 out h (select_preserves g wf fuel _ _ _ _ _ _ hsel hinv).1

/-- The fresh root satisfies the invariant. -/
theorem TreeInv_new (param : ℚ) : TreeInv (TreeNode.new param) :=
  TreeInv_of_children_nil rfl

/-! ### Claim theorems -/

/-- C2: `backpropagate(value)` appends `value`, unchanged, to the node's
`results` and, in the same call, to every ancestor on the parent chain up to
the root — exactly one append per node — and afterwards each affected node's
`sc` equals `sum(results)/len(results)`; the old `results` persists as a
prefix, so no entry is ever removed or transformed. -/
theorem backpropagate_appends_everywhere (v : ℚ) (chain : List NodeStat) :
    backpropagate v chain =
      chain.map (fun st => ⟨st.results ++ [v], meanOf (st.results ++ [v])⟩) ∧
    (backpropagate v chain).length = chain.length := by
  have h : backpropagate v chain =
      chain.map (fun st => ⟨st.results ++ [v], meanOf (st.results ++ [v])⟩) := by
    induction chain with
    | nil => rfl
    | cons st rest ih => simp [backpropagate, ih]
  exact ⟨h, by rw [h]; simp⟩

/-- C4: `score(state)` returns exactly `1` when the state is terminal with a
win signal (`get_end_result() == 1`); in every other case — terminal loss,
draw, or non-terminal state — it falls through to the heuristic blend
`(state.score() + state.health()) / 3` (the hard `return 0` on a loss is
commented out). -/
theorem score_win_or_blend {S A : Type} (g : Game S A) (s : S) :
    TreeNode.score g s =
      if g.ended s ∧ g.endResult s = 1 then 1 else (g.score s + g.health s) / 3 := by
  rw [TreeNode.score]
  by_cases hend : g.ended s
  · by_cases hw : g.endResult s = 1
    · simp [hend, hw]
    · simp [hend, hw]
  · simp [hend]

/-- C5: when the decision state has exactly one legal action, `choose_card`
returns that action immediately; no `TreeNode` is constructed and no search
iteration runs (the tree report in the result is `none`). -/
theorem choose_card_single_action {S A W : Type} [LinearOrder W] [Neg W] [One W]
    (g : Game S A) (wf : ℚ → ℚ → ℕ → ℕ → W) (fuel iterations : ℕ) (param : ℚ) (s : S)
    (rng : List ℕ) (h : (g.actions s).length = 1) :
    ∃ a, g.actions s = [a] ∧
      MCTSAgent.choose_card g wf fuel iterations param s rng = some (a, none) := by
  obtain ⟨a, ha⟩ := List.length_eq_one.mp h
  refine ⟨a, ha, ?_⟩
  rw [MCTSAgent.choose_card]
  simp [ha]

/-- Witness for C5 at a concrete single-action game. -/
theorem choose_card_single_action_witness :
    ((lineGame 2 0).actions 0).length = 1 ∧
    ∃ a, (lineGame 2 0).actions 0 = [a] ∧
      MCTSAgent.choose_card (lineGame 2 0) wfZero 5 10 (1/2) 0 [] = some (a, none) :=
  ⟨rfl, choose_card_single_action (lineGame 2 0) wfZero 5 10 (1/2) 0 [] rfl⟩

/-- C10 (amended): when verbose diagnostics are enabled, `print_tree` emits
for each explored child exactly one line carrying the child's label, its mean
score truncated toward zero to two decimal places (`int(c.sc * 100) / 100`,
not rounded), and its visit count `len(c.results)`, followed recursively by
the child's own subtree one tab level deeper. -/
theorem print_tree_structure (t : TreeNode) (indent : ℕ) :
    t.print_tree indent =
      t.children.flatMap (fun kc =>
        ⟨indent, kc.2.aname, ((pyInt (kc.2.sc * 100) : ℤ) : ℚ) / 100, kc.2.results.length⟩ ::
          kc.2.print_tree (indent + 1)) := by
  cases t with
  | mk r sc p a an ch =>
    simp only [TreeNode.print_tree, TreeNode.children_mk]
    induction ch with
    | nil => rfl
    | cons kc rest ih =>
      obtain ⟨k, c⟩ := kc
      simp [printChildren, ih]

/-- C10 counterexample: for a child with mean score `0.876` the code prints
`0.87` (truncation toward zero), while rounding to two decimals yields
`0.88`; the printed score is therefore not the mean rounded to 2 decimals. -/
theorem print_tree_truncates_counterexample :
    treeTrunc.print_tree 0 = [⟨0, some "a", 87/100, 1⟩] ∧
    round2 (219/250) = 88/100 ∧ (87/100 : ℚ) ≠ 88/100 := by
  have hfloor : pyInt ((219/250 : ℚ) * 100) = 87 := by
    rw [pyInt, if_pos (by norm_num)]
    rw [show ((219/250 : ℚ) * 100) = 438/5 by norm_num]
    rw [Int.floor_eq_iff]
    norm_num
  have hround : round ((219/250 : ℚ) * 100) = (88 : ℤ) := by
    rw [show ((219/250 : ℚ) * 100) = 438/5 by norm_num]
    rw [round_eq, show (438/5 + 1/2 : ℚ) = 881/10 by norm_num, Int.floor_eq_iff]
    norm_num
  refine ⟨?_, ?_, by norm_num⟩
  · simp [treeTrunc, leafTrunc, TreeNode.print_tree, printChildren, TreeNode.aname,
      TreeNode.sc, TreeNode.results, hfloor]
  · rw [round2, hround]
    norm_num

/-- C3 counterexample: in `treeNeg` the legal action 0 has a child (mean
score `-2`) while action 1 has none; the claim requires `get_best` to return
action 0 (the only — hence highest-mean — child-backed action) and to fall
back to a random action only when no legal action has a child, yet the code
falls back (returning action 1 for oracle value 1) because the `-1` sentinel
of the selection loop is never beaten. -/
theorem get_best_sentinel_counterexample :
    treeNeg.get_best (id : ℕ → ℕ) [0, 1] 1 = some 1 ∧
    lookupChild (id 0) treeNeg.children = some leafNeg ∧ leafNeg.sc = -2 ∧
    lookupChild (id 1) treeNeg.children = none := by
  exact ⟨rfl, rfl, rfl, rfl⟩

/-- C3 (amended): `get_best` returns, among the current state's legal actions
that have a child, the first action whose child attains the maximal mean
score — provided that maximum exceeds the `-1` sentinel of its selection
loop; it falls back to `random.choice` over the legal actions whenever every
child-backed legal action's child has mean score ≤ -1 (in particular whenever
no legal action has a child); and for a state with at least one legal action
the returned value is always one of that state's legal actions. -/
theorem get_best_exploit_fallback {A : Type} (t : TreeNode) (key : A → ℕ) (acts : List A)
    (r : ℕ) :
    ((∃ a ∈ acts, ∃ c, lookupChild (key a) t.children = some c ∧ (-1 : ℚ) < c.sc) →
      ∃ l1 a l2 c, acts = l1 ++ a :: l2 ∧ lookupChild (key a) t.children = some c ∧
        t.get_best key acts r = some a ∧
        (∀ b ∈ acts, ∀ cb, lookupChild (key b) t.children = some cb → cb.sc ≤ c.sc) ∧
        (∀ b ∈ l1, ∀ cb, lookupChild (key b) t.children = some cb → cb.sc < c.sc)) ∧
    ((∀ a ∈ acts, ∀ c, lookupChild (key a) t.children = some c → c.sc ≤ -1) →
      t.get_best key acts r = randChoice acts r) ∧
    (acts ≠ [] → ∃ a ∈ acts, t.get_best key acts r = some a) := by
  refine ⟨?_, ?_, ?_⟩
  · rintro ⟨b, hb, c, hc, hgt⟩
    obtain ⟨l1, a, l2, u, hsplit, hwa, hmu, hres, hmax, hfirst⟩ :=
      (pickMaxAux_spec (fun a => (lookupChild (key a) t.children).map TreeNode.sc)
        acts none (-1)).1 ⟨b, hb, c.sc, by rw [hc]; rfl, hgt⟩
    obtain ⟨ca, hca, hcau⟩ := Option.map_eq_some'.mp hwa
    refine ⟨l1, a, l2, ca, hsplit, hca, ?_, ?_, ?_⟩
    · rw [TreeNode.get_best, hres]
    · intro b' hb' cb hcb
      have := hmax b' hb' cb.sc (by rw [hcb]; rfl)
      rw [hcau]
      exact this
    · intro b' hb' cb hcb
      have := hfirst b' hb' cb.sc (by rw [hcb]; rfl)
      rw [hcau]
      exact this
  · intro hall
    have hres := (pickMaxAux_spec (fun a => (lookupChild (key a) t.children).map TreeNode.sc)
        acts none (-1)).2 ?_
    · rw [TreeNode.get_best, hres]
    · intro b hb u hu
      obtain ⟨cb, hcb, hcbu⟩ := Option.map_eq_some'.mp hu
      rw [← hcbu]
      exact hall b hb cb hcb
  · intro hne
    cases hpm : pickMaxAux (fun a => (lookupChild (key a) t.children).map TreeNode.sc)
        acts none (-1) with
    | none =>
      obtain ⟨a, ha, heq⟩ := randChoice_mem acts r hne
      exact ⟨a, ha, by rw [TreeNode.get_best, hpm, heq]⟩
    | some a =>
      rcases pickMaxAux_mem _ acts none (-1) a hpm with hmem | hcontra
      · exact ⟨a, hmem, by rw [TreeNode.get_best, hpm]⟩
      · exact Option.noConfusion hcontra

/-- Witness for C3 (amended): the exploitation case and the legality case at
`treeTie` (two child-backed actions tied at mean `1/2`, the first wins), the
fallback case at `treeNeg` (its only child sits at `-2 ≤ -1`). -/
theorem get_best_exploit_fallback_witness :
    ((∃ a ∈ [0, 1], ∃ c, lookupChild (id a) treeTie.children = some c ∧ (-1 : ℚ) < c.sc) ∧
      (∃ l1 a l2 c, ([0, 1] : List ℕ) = l1 ++ a :: l2 ∧
        lookupChild (id a) treeTie.children = some c ∧
        treeTie.get_best (id : ℕ → ℕ) [0, 1] 0 = some a ∧
        (∀ b ∈ [0, 1], ∀ cb, lookupChild (id b) treeTie.children = some cb → cb.sc ≤ c.sc) ∧
        (∀ b ∈ l1, ∀ cb, lookupChild (id b) treeTie.children = some cb → cb.sc < c.sc))) ∧
    ((∀ a ∈ [0, 1], ∀ c, lookupChild (id a) treeNeg.children = some c → c.sc ≤ -1) ∧
      treeNeg.get_best (id : ℕ → ℕ) [0, 1] 1 = randChoice [0, 1] 1) ∧
    (([0, 1] : List ℕ) ≠ [] ∧ ∃ a ∈ [0, 1], treeTie.get_best (id : ℕ → ℕ) [0, 1] 0 = some a) := by
  have hbeat : ∃ a ∈ [0, 1], ∃ c, lookupChild (id a) treeTie.children = some c ∧
      (-1 : ℚ) < c.sc := ⟨0, by decide, leafA, rfl, by norm_num [leafA]⟩
  have hfall : ∀ a ∈ [0, 1], ∀ c, lookupChild (id a) treeNeg.children = some c →
      c.sc ≤ -1 := by decide
  refine ⟨⟨hbeat, (get_best_exploit_fallback treeTie id [0, 1] 0).1 hbeat⟩,
    ⟨hfall, (get_best_exploit_fallback treeNeg id [0, 1] 1).2.1 hfall⟩,
    ⟨by decide, (get_best_exploit_fallback treeTie id [0, 1] 0).2.2 (by decide)⟩⟩

/-- C1 counterexample: in `treeNeg` every legal action (the single action 0)
already has a child and the child's UCB value is
`-2 + 0.5*sqrt(log(1/1)) = -2`; the claim requires this (unique, hence
maximal) child to be chosen for descent, yet the selection loop of lines
81-90 chooses nothing — the `-1` sentinel is never beaten — so the descent
never happens (in Python, `statecopy.step(None)` then raises). -/
theorem select_sentinel_counterexample :
    exploitChoice ucbW treeNeg (id : ℕ → ℕ) [0] = none ∧
    lookupChild (id 0) treeNeg.children = some leafNeg ∧
    ucbW treeNeg.param leafNeg.sc treeNeg.results.length leafNeg.results.length = -2 := by
  have hval : ucbW treeNeg.param leafNeg.sc treeNeg.results.length leafNeg.results.length
      = -2 := by
    simp [ucbW, treeNeg, leafNeg, TreeNode.param_mk, TreeNode.sc_mk, TreeNode.results_mk,
      Real.log_one]
  refine ⟨?_, rfl, hval⟩
  have hw : childWeight ucbW treeNeg (id : ℕ → ℕ) 0 = some (-2 : ℝ) := by
    rw [childWeight]
    rw [show lookupChild ((id : ℕ → ℕ) 0) treeNeg.children = some leafNeg from rfl]
    rw [Option.map_some']
    rw [hval]
  rw [exploitChoice]
  simp only [pickMaxAux, hw]
  rw [if_neg (by norm_num)]

/-- C1 (amended): during `select`, when the state is non-terminal and every
legal action's identity already has a child, the child chosen for descent is
the first one, in legal-action enumeration order, attaining the maximal value
of `c.sc + self.param * sqrt(log(len(self.results) / len(c.results)))` —
provided some child's value exceeds the `-1` sentinel of the selection loop
(always the case when mean scores are nonnegative); whenever two or more
children tie at the maximal value, the first-encountered action wins. -/
theorem select_ucb_first_argmax {A : Type} (t : TreeNode) (key : A → ℕ) (acts : List A)
    (hsome : ∀ a ∈ acts, (lookupChild (key a) t.children).isSome = true)
    (hbeat : ∃ a ∈ acts, ∃ c, lookupChild (key a) t.children = some c ∧
      (-1 : ℝ) < ucbW t.param c.sc t.results.length c.results.length) :
    ∃ l1 a l2 c, acts = l1 ++ a :: l2 ∧ lookupChild (key a) t.children = some c ∧
      exploitChoice ucbW t key acts = some a ∧
      (∀ b ∈ acts, ∀ cb, lookupChild (key b) t.children = some cb →
        ucbW t.param cb.sc t.results.length cb.results.length ≤
          ucbW t.param c.sc t.results.length c.results.length) ∧
      (∀ b ∈ l1, ∀ cb, lookupChild (key b) t.children = some cb →
        ucbW t.param cb.sc t.results.length cb.results.length <
          ucbW t.param c.sc t.results.length c.results.length) := by
  obtain ⟨b, hb, c, hc, hgt⟩ := hbeat
  obtain ⟨l1, a, l2, u, hsplit, hwa, hmu, hres, hmax, hfirst⟩ :=
    (pickMaxAux_spec (childWeight ucbW t key) acts none (-1)).1
      ⟨b, hb, ucbW t.param c.sc t.results.length c.results.length,
        by rw [childWeight, hc]; rfl, hgt⟩
  obtain ⟨ca, hca, hcau⟩ := Option.map_eq_some'.mp hwa
  refine ⟨l1, a, l2, ca, hsplit, hca, hres, ?_, ?_⟩
  · intro b' hb' cb hcb
    have := hmax b' hb' (ucbW t.param cb.sc t.results.length cb.results.length)
      (by rw [childWeight, hcb]; rfl)
    rw [hcau]
    exact this
  · intro b' hb' cb hcb
    have := hfirst b' hb' (ucbW t.param cb.sc t.results.length cb.results.length)
      (by rw [childWeight, hcb]; rfl)
    rw [hcau]
    exact this

/-- Witness for C1 (amended) at `treeTie`: both children are tied at UCB
value `1/2 + 0.5*sqrt(log(1/1)) = 1/2 > -1`, and the selection returns the
first of the two tied actions. -/
theorem select_ucb_first_argmax_witness :
    (∀ a ∈ [0, 1], (lookupChild (id a) treeTie.children).isSome = true) ∧
    (∃ a ∈ [0, 1], ∃ c, lookupChild (id a) treeTie.children = some c ∧
      (-1 : ℝ) < ucbW treeTie.param c.sc treeTie.results.length c.results.length) ∧
    (∃ l1 a l2 c, ([0, 1] : List ℕ) = l1 ++ a :: l2 ∧
      lookupChild (id a) treeTie.children = some c ∧
      exploitChoice ucbW treeTie (id : ℕ → ℕ) [0, 1] = some a ∧
      (∀ b ∈ [0, 1], ∀ cb, lookupChild (id b) treeTie.children = some cb →
        ucbW treeTie.param cb.sc treeTie.results.length cb.results.length ≤
          ucbW treeTie.param c.sc treeTie.results.length c.results.length) ∧
      (∀ b ∈ l1, ∀ cb, lookupChild (id b) treeTie.children = some cb →
        ucbW treeTie.param cb.sc treeTie.results.length cb.results.length <
          ucbW treeTie.param c.sc treeTie.results.length c.results.length)) := by
  have hsome : ∀ a ∈ [0, 1], (lookupChild (id a) treeTie.children).isSome = true := by decide
  have hbeat : ∃ a ∈ [0, 1], ∃ c, lookupChild (id a) treeTie.children = some c ∧
      (-1 : ℝ) < ucbW treeTie.param c.sc treeTie.results.length c.results.length := by
    refine ⟨0, by decide, leafA, rfl, ?_⟩
    simp [ucbW, treeTie, leafA, Real.log_one]
    norm_num
  exact ⟨hsome, hbeat, select_ucb_first_argmax treeTie id [0, 1] hsome hbeat⟩

/-- C7 counterexample: on `lineGame 5 10` (whose `copy_undeterministic`
shifts the state by 10) from state 0, the code's `expand` backpropagates
`11/3` — it resamples the given state once more (line 99) before stepping —
while applying the chosen action to the state it was given, as the claim
reads, would backpropagate `5/3`. -/
theorem expand_resamples_counterexample :
    (TreeNode.expand (lineGame 5 10) 10 (TreeNode.new (1/2)) 0 [0] []).map
        (fun out => out.2.1) = some (11/3) ∧
    (expandAsSpecified (lineGame 5 10) 10 (TreeNode.new (1/2)) 0 [0] []).map
        (fun out => out.2.1) = some (5/3) ∧
    (11/3 : ℚ) ≠ 5/3 := by
  refine ⟨?_, ?_, by norm_num⟩
  · simp [TreeNode.expand, lineGame, draw, randChoice, TreeNode.rollout, rolloutLoop,
      TreeNode.record, TreeNode.new, TreeNode.score, meanOf]
  · simp [expandAsSpecified, lineGame, draw, randChoice, TreeNode.rollout, rolloutLoop,
      TreeNode.record, TreeNode.new, TreeNode.score, meanOf]

/-- C7 (amended): `expand(state, available)` picks the action indexed by the
random draw from the unexplored set, adds exactly one new child to
`self.children` keyed by that action's identity — created together with its
first rollout outcome — but it applies the chosen action to a *fresh
resample* of the state it was given (line 99), not to the given state
itself, and performs the rollout from that successor on the new child. -/
theorem expand_characterization {S A : Type} (g : Game S A) (fuel : ℕ) (t : TreeNode)
    (s : S) (avail : List A) (rng : List ℕ) (t' : TreeNode) (v : ℚ) (rng' : List ℕ)
    (h : TreeNode.expand g fuel t s avail rng = some (t', v, rng')) :
    ∃ choice nn' sf rngf,
      randChoice avail (draw (draw rng).2).1 = some choice ∧ choice ∈ avail ∧
      t'.children = t.children ++ [(g.key choice, nn')] ∧
      t'.results = t.results ++ [v] ∧
      nn'.results = [v] ∧ nn'.children = [] ∧
      nn'.action = some (g.key choice) ∧ nn'.aname = some (g.name choice) ∧
      rolloutLoop g fuel (g.step (g.resample s (draw rng).1) choice) (draw (draw rng).2).2 =
        some (sf, rngf) ∧ v = TreeNode.score g sf ∧ rng' = rngf := by
  obtain ⟨choice, nn', hrc, hmem, ht', hnn', sf, rngf, hroll, hv, hrng⟩ := expand_some h
  subst ht'
  subst hnn'
  exact ⟨choice, _, sf, rngf, hrc, hmem, rfl, rfl, rfl, rfl, rfl, rfl, hroll, hv, hrng⟩

/-- Witness for C7 (amended): a concrete expansion on `lineGame 2 0`. -/
theorem expand_characterization_witness :
    TreeNode.expand (lineGame 2 0) 5 (TreeNode.new (1/2)) 0 [0] [] =
      some (treeExp, 2/3, []) ∧
    ∃ choice nn' sf rngf,
      randChoice [0] (draw (draw ([] : List ℕ)).2).1 = some choice ∧ choice ∈ [0] ∧
      treeExp.children = (TreeNode.new (1/2)).children ++
        [((lineGame 2 0).key choice, nn')] ∧
      treeExp.results = (TreeNode.new (1/2)).results ++ [2/3] ∧
      nn'.results = [2/3] ∧ nn'.children = [] ∧
      nn'.action = some ((lineGame 2 0).key choice) ∧
      nn'.aname = some ((lineGame 2 0).name choice) ∧
      rolloutLoop (lineGame 2 0) 5
        ((lineGame 2 0).step ((lineGame 2 0).resample 0 (draw ([] : List ℕ)).1) choice)
        (draw (draw ([] : List ℕ)).2).2 = some (sf, rngf) ∧
      (2/3 : ℚ) = TreeNode.score (lineGame 2 0) sf ∧ ([] : List ℕ) = rngf := by
  have hEq : TreeNode.expand (lineGame 2 0) 5 (TreeNode.new (1/2)) 0 [0] [] =
      some (treeExp, 2/3, []) := by
    simp [TreeNode.expand, lineGame, draw, randChoice, TreeNode.rollout, rolloutLoop,
      TreeNode.record, TreeNode.new, TreeNode.score, meanOf, treeExp, treeExpChild]
  exact ⟨hEq, expand_characterization _ _ _ _ _ _ _ _ _ hEq⟩

/-- C6: with an iteration budget of exactly 1 and a non-terminal sampled
state, the driver loop creates exactly one new node below the fresh root and
leaves the root's `results` with exactly one entry; and in general every
`expand` creates its one new child together with that child's first rollout
outcome, so an expanded node always has `len(results) ≥ 1`. -/
theorem budget_one_single_expansion {S A W : Type} [LinearOrder W] [Neg W] [One W]
    (g : Game S A) (wf : ℚ → ℚ → ℕ → ℕ → W) (fuel : ℕ) (param : ℚ) (s : S)
    (rng : List ℕ) (t' : TreeNode) (rng' : List ℕ)
    (hnotend : g.ended (g.resample s (draw rng).1) = false)
    (hrun : runLoop g wf fuel 1 (TreeNode.new param) s rng = some (t', rng')) :
    t'.results.length = 1 ∧ t'.children.length = 1 ∧
    (∀ kc ∈ t'.children, kc.2.results.length = 1 ∧ kc.2.children = []) ∧
    (∀ (t2 : TreeNode) (s2 : S) (avail2 : List A) (rng2 : List ℕ) (t3 : TreeNode)
      (v3 : ℚ) (rng3 : List ℕ),
      TreeNode.expand g fuel t2 s2 avail2 rng2 = some (t3, v3, rng3) →
      ∃ k nn, t3.children = t2.children ++ [(k, nn)] ∧ nn.results.length = 1) := by
  have hexp : ∀ (t2 : TreeNode) (s2 : S) (avail2 : List A) (rng2 : List ℕ) (t3 : TreeNode)
      (v3 : ℚ) (rng3 : List ℕ),
      TreeNode.expand g fuel t2 s2 avail2 rng2 = some (t3, v3, rng3) →
      ∃ k nn, t3.children = t2.children ++ [(k, nn)] ∧ nn.results.length = 1 := by
    intro t2 s2 avail2 rng2 t3 v3 rng3 h
    obtain ⟨choice, nn', hrc, hmem, ht', hnn', -⟩ := expand_some h
    subst ht'
    subst hnn'
    exact ⟨g.key choice, _, rfl, rfl⟩
  simp only [runLoop] at hrun
  cases hsel : TreeNode.select g wf fuel (TreeNode.new param) (g.resample s (draw rng).1)
      (draw rng).2 with
  | none => simp only [hsel] at hrun; exact Option.noConfusion hrun
  | some o =>
    obtain ⟨t1, v1, rng1⟩ := o
    simp only [hsel, runLoop, Option.some.injEq, Prod.mk.injEq] at hrun
    obtain ⟨hrt, hrr⟩ := hrun
    subst hrt
    simp only [TreeNode.new, TreeNode.select, hnotend, Bool.false_eq_true, if_false,
      lookupChild, Option.isNone_none, List.filter_true] at hsel
    by_cases hacts : g.actions (g.resample (g.resample s (draw rng).1)
        (draw ((draw rng).2)).1) = []
    · rw [hacts] at hsel
      simp only [List.length_nil, Nat.lt_irrefl, if_false, exploitChoice, pickMaxAux] at hsel
      exact Option.noConfusion hsel
    · rw [if_pos (List.length_pos.mpr hacts)] at hsel
      obtain ⟨choice, nn', hrc, hmem, ht1, hnn', -⟩ := expand_some hsel
      subst ht1
      subst hnn'
      refine ⟨rfl, rfl, ?_, hexp⟩
      intro kc hkc
      have hkc2 : kc = ((g.key choice),
          TreeNode.mk [v1] (meanOf [v1]) param (some (g.key choice))
            (some (g.name choice)) []) := by
        simpa using hkc
      subst hkc2
      exact ⟨rfl, rfl⟩

/-- Witness for C6: one iteration on `lineGame 2 0` from a fresh root. -/
theorem budget_one_single_expansion_witness :
    (lineGame 2 0).ended ((lineGame 2 0).resample 0 (draw ([] : List ℕ)).1) = false ∧
    runLoop (lineGame 2 0) wfZero 5 1 (TreeNode.new (1/2)) 0 [] = some (treeExp, []) ∧
    (treeExp.results.length = 1 ∧ treeExp.children.length = 1 ∧
      (∀ kc ∈ treeExp.children, kc.2.results.length = 1 ∧ kc.2.children = []) ∧
      (∀ (t2 : TreeNode) (s2 : ℕ) (avail2 : List ℕ) (rng2 : List ℕ) (t3 : TreeNode)
        (v3 : ℚ) (rng3 : List ℕ),
        TreeNode.expand (lineGame 2 0) 5 t2 s2 avail2 rng2 = some (t3, v3, rng3) →
        ∃ k nn, t3.children = t2.children ++ [(k, nn)] ∧ nn.results.length = 1)) := by
  have h1 : (lineGame 2 0).ended ((lineGame 2 0).resample 0 (draw ([] : List ℕ)).1) =
      false := rfl
  have h2 : runLoop (lineGame 2 0) wfZero 5 1 (TreeNode.new (1/2)) 0 [] =
      some (treeExp, []) := by
    have hsel : TreeNode.select (lineGame 2 0) wfZero 5 (TreeNode.new (1/2))
        ((lineGame 2 0).resample 0 (draw ([] : List ℕ)).1) (draw ([] : List ℕ)).2 =
        some (treeExp, 2/3, []) := by
      simp [TreeNode.new, TreeNode.select, lineGame, lookupChild, TreeNode.expand,
        TreeNode.rollout, rolloutLoop, randChoice, draw, treeExp, treeExpChild,
        TreeNode.record, TreeNode.score, meanOf]
    simp only [runLoop]
    rw [hsel]
  exact ⟨h1, h2, budget_one_single_expansion (lineGame 2 0) wfZero 5 (1/2) 0 [] treeExp []
    h1 h2⟩

/-- C8: the engine maintains the invariant that lets the exploitation branch
evaluate its upper-confidence expression safely: the fresh root satisfies the
invariant, every `select` call (with the UCB weight of line 86) preserves it,
and under the invariant every node that stores a child has
`len(self.results) ≥ 1` and `len(c.results) ≥ 1`, so the logarithm argument
`len(self.results) / len(c.results)` is strictly positive — neither a
division by zero nor a math-domain error can occur. -/
theorem select_log_argument_safe :
    (∀ param : ℚ, TreeInv (TreeNode.new param)) ∧
    (∀ (S A : Type) (g : Game S A) (fuel : ℕ) (t : TreeNode) (s : S) (rng : List ℕ)
      (t' : TreeNode) (v : ℚ) (rng' : List ℕ),
      TreeNode.select g ucbW fuel t s rng = some (t', v, rng') → TreeInv t → TreeInv t') ∧
    (∀ (t c : TreeNode) (k : ℕ), TreeInv t → lookupChild k t.children = some c →
      1 ≤ t.results.length ∧ 1 ≤ c.results.length ∧
      0 < ((t.results.length : ℝ) / (c.results.length : ℝ))) := by
  refine ⟨TreeInv_new, ?_, ?_⟩
  · intro S A g fuel t s rng t' v rng' hsel hinv
    exact (select_preserves g ucbW fuel t s rng t' v rng' hsel hinv).1
  · intro t c k hinv hc
    obtain ⟨h1, h2, h3⟩ := TreeInv_lookup hinv hc
    refine ⟨h3, h1, div_pos ?_ ?_⟩
    · exact_mod_cast h3
    · exact_mod_cast h1

/-- Witness for C8: the fresh root, a concrete preserved `select` call on an
already-terminal sampled state, and the ratio bounds at `treeTie`. -/
theorem select_log_argument_safe_witness :
    TreeInv (TreeNode.new 0) ∧
    TreeInv (treeTie.record (TreeNode.score (lineGame 0 0) 0)) ∧
    (1 ≤ treeTie.results.length ∧ 1 ≤ leafA.results.length ∧
      0 < ((treeTie.results.length : ℝ) / (leafA.results.length : ℝ))) := by
  have hinvA : TreeInv leafA := TreeInv_of_children_nil rfl
  have hinvB : TreeInv leafB := TreeInv_of_children_nil rfl
  have hinvTie : TreeInv treeTie := by
    have : TreeInv (TreeNode.mk [1/2] (1/2) (1/2) none none [(0, leafA), (1, leafB)]) := by
      refine TreeInv.node _ _ _ _ _ _ ?_ ?_
      · intro kc hkc
        rcases List.mem_cons.mp hkc with h | h
        · subst h; exact ⟨by decide, by decide⟩
        · rcases List.mem_cons.mp h with h2 | h2
          · subst h2; exact ⟨by decide, by decide⟩
          · exact absurd h2 (List.not_mem_nil _)
      · intro kc hkc
        rcases List.mem_cons.mp hkc with h | h
        · subst h; exact hinvA
        · rcases List.mem_cons.mp h with h2 | h2
          · subst h2; exact hinvB
          · exact absurd h2 (List.not_mem_nil _)
    exact this
  have hsel : TreeNode.select (lineGame 0 0) ucbW 5 treeTie 0 [] =
      some (treeTie.record (TreeNode.score (lineGame 0 0) 0),
        TreeNode.score (lineGame 0 0) 0, []) := by
    have : TreeNode.select (lineGame 0 0) ucbW 5
        (TreeNode.mk [1/2] (1/2) (1/2) none none [(0, leafA), (1, leafB)]) 0 [] =
        some ((TreeNode.mk [1/2] (1/2) (1/2) none none
            [(0, leafA), (1, leafB)]).record (TreeNode.score (lineGame 0 0) 0),
          TreeNode.score (lineGame 0 0) 0, []) := by
      rw [TreeNode.select]
      rw [if_pos (by rfl)]
    exact this
  refine ⟨select_log_argument_safe.1 0, ?_, ?_⟩
  · exact select_log_argument_safe.2.1 ℕ ℕ (lineGame 0 0) 5 treeTie 0 [] _ _ _ hsel hinvTie
  · exact select_log_argument_safe.2.2 treeTie leafA 0 hinvTie rfl

/-- C9: visit counts never increase along a parent-to-child edge.  The fresh
root satisfies the invariant, the whole driver loop (with the UCB weight of
line 86) preserves it, and under the invariant every edge of the tree has
`len(parent.results) ≥ len(child.results) ≥ 1`; consequently the logarithm
argument of the selection formula is ≥ 1 and the square-root argument
`log(...)` is ≥ 0. -/
theorem visit_counts_monotone :
    (∀ param : ℚ, TreeInv (TreeNode.new param)) ∧
    (∀ (S A : Type) (g : Game S A) (fuel n : ℕ) (t : TreeNode) (s : S) (rng : List ℕ)
      (out : TreeNode × List ℕ),
      runLoop g ucbW fuel n t s rng = some out → TreeInv t → TreeInv out.1) ∧
    (∀ (r p c : TreeNode) (k : ℕ), TreeInv r → Subtree p r → (k, c) ∈ p.children →
      c.results.length ≤ p.results.length ∧ 1 ≤ c.results.length ∧
      1 ≤ ((p.results.length : ℝ) / (c.results.length : ℝ)) ∧
      0 ≤ Real.log ((p.results.length : ℝ) / (c.results.length : ℝ))) := by
  refine ⟨TreeInv_new, ?_, ?_⟩
  · intro S A g fuel n t s rng out hrun hinv
    exact runLoop_preserves g ucbW fuel n t s rng out hrun hinv
  · intro r p c k hr hsub hmem
    have hp : TreeInv p := TreeInv_subtree hsub hr
    have hfacts : 1 ≤ c.results.length ∧ c.results.length ≤ p.results.length := by
      cases p with
      | mk rr ss pp aa nn cc =>
        simp only [TreeNode.children_mk] at hmem
        exact (TreeInv_elim hp _ hmem).1
    have hratio : 1 ≤ ((p.results.length : ℝ) / (c.results.length : ℝ)) := by
      rw [one_le_div (by exact_mod_cast hfacts.1)]
      exact_mod_cast hfacts.2
    exact ⟨hfacts.2, hfacts.1, hratio, Real.log_nonneg hratio⟩

/-- Witness for C9: the root invariant, one concrete preserved driver loop,
and the edge bounds on `treeTie`'s first child. -/
theorem visit_counts_monotone_witness :
    TreeInv (TreeNode.new 0) ∧
    TreeInv (treeTie.record (TreeNode.score (lineGame 0 0) 0)) ∧
    ((leafA.results.length ≤ treeTie.results.length ∧ 1 ≤ leafA.results.length ∧
      1 ≤ ((treeTie.results.length : ℝ) / (leafA.results.length : ℝ)) ∧
      0 ≤ Real.log ((treeTie.results.length : ℝ) / (leafA.results.length : ℝ)))) := by
  have hinvA : TreeInv leafA := TreeInv_of_children_nil rfl
  have hinvB : TreeInv leafB := TreeInv_of_children_nil rfl
  have hinvTie : TreeInv treeTie := by
    have : TreeInv (TreeNode.mk [1/2] (1/2) (1/2) none none [(0, leafA), (1, leafB)]) := by
      refine TreeInv.node _ _ _ _ _ _ ?_ ?_
      · intro kc hkc
        rcases List.mem_cons.mp hkc with h | h
        · subst h; exact ⟨by decide, by decide⟩
        · rcases List.mem_cons.mp h with h2 | h2
          · subst h2; exact ⟨by decide, by decide⟩
          · exact absurd h2 (List.not_mem_nil _)
      · intro kc hkc
        rcases List.mem_cons.mp hkc with h | h
        · subst h; exact hinvA
        · rcases List.mem_cons.mp h with h2 | h2
          · subst h2; exact hinvB
          · exact absurd h2 (List.not_mem_nil _)
    exact this
  have hrun : runLoop (lineGame 0 0) ucbW 5 1 treeTie 0 [] =
      some (treeTie.record (TreeNode.score (lineGame 0 0) 0), []) := by
    have hsel : TreeNode.select (lineGame 0 0) ucbW 5 treeTie 0 [] =
        some (treeTie.record (TreeNode.score (lineGame 0 0) 0),
          TreeNode.score (lineGame 0 0) 0, []) := by
      have h0 : TreeNode.select (lineGame 0 0) ucbW 5
          (TreeNode.mk [1/2] (1/2) (1/2) none none [(0, leafA), (1, leafB)]) 0 [] =
          some ((TreeNode.mk [1/2] (1/2) (1/2) none none
              [(0, leafA), (1, leafB)]).record (TreeNode.score (lineGame 0 0) 0),
            TreeNode.score (lineGame 0 0) 0, []) := by
        rw [TreeNode.select]
        rw [if_pos (by rfl)]
      exact h0
    simp only [runLoop]
    rw [show (lineGame 0 0).resample 0 (draw ([] : List ℕ)).1 = 0 from rfl]
    rw [show (draw ([] : List ℕ)).2 = [] from rfl]
    rw [hsel]
  have hmem : ((0 : ℕ), leafA) ∈ treeTie.children := by
    show ((0 : ℕ), leafA) ∈ [(0, leafA), (1, leafB)]
    exact List.mem_cons_self _ _
  refine ⟨visit_counts_monotone.1 0, ?_, ?_⟩
  · exact visit_counts_monotone.2.1 ℕ ℕ (lineGame 0 0) 5 1 treeTie 0 [] _ hrun hinvTie
  · exact visit_counts_monotone.2.2 treeTie treeTie leafA 0 hinvTie (Subtree.refl _) hmem
